import Mathlib

/-!
Shallow embedding of the data-transformation pipeline of `src/app.py`
(the `update_visuals` Dash callback of the Risk Map dashboard).

The pipeline receives the loaded incident table (one `Row` per incident,
dates already parsed and `Region` already filled with `"Unknown"`, per the
loader at the top of `app.py`) and an optional region selection, and
produces the shaped datasets behind each figure: casualty distribution,
attack taxonomy, geographic counts, monthly trend, yearly-by-region counts,
actor profile, and the top-country narration.

Modelling conventions:
* a pandas column that may hold NaN is an `Option`;
* `Series.max()` on an empty series yields NaN, modelled as `none`;
* exceptions raised by pandas (`pd.cut` on an empty edge list,
  `.iloc[0]` on an empty frame) are modelled with `Except String`;
* `groupby(...).size()` / `.agg(...)` with the default `sort=True` is
  modelled as: sorted list of observed group keys, each with its count/sums
  (group keys are the observed key tuples, as with `observed=True`);
* `sort_values(by="count", ascending=False)` with the default
  `kind="quicksort"` goes through `nargsort`, which argsorts the reversed
  values and reverses the resulting indexer again; the descending sort is
  therefore stable exactly when the underlying argsort is, which numpy
  guarantees only below its 16-element insertion-sort cutoff.  The model
  uses a stable descending sort: exact in that small regime (the only one
  the theorems evaluate), while on larger frames numpy quicksort's tie
  order is an unspecified implementation artifact, and program and model
  agree only in that the leading row attains the maximum count.
-/

namespace RiskMap

/-- One row of the loaded incident table.  `year`, `month`, `day` are the
components of the parsed `date` column; the derived `year` column of
`app.py` equals the date's year component.  `meansOfAttack` and
`attackContext` are optional (NaN-able) categorical columns; the remaining
fields are required and non-null after load-time normalization. -/
structure Row where
  incidentId : Nat
  year : Nat
  month : Nat
  day : Nat
  country : String
  region : String
  meansOfAttack : Option String
  attackContext : Option String
  actorType : String
  totalCasualties : Nat
  totalAffected : Nat
deriving DecidableEq, Repr

/-- Python truthiness of the `region` callback argument: `None` and the
empty string are falsy, every other string is truthy (`if region:`). -/
def truthyRegion : Option String → Bool
  | none => false
  | some s => s ≠ ""

/-- The region filter: `if region: dff = dff[dff["Region"] == region]`. -/
def regionFilter (df : List Row) (region : Option String) : List Row :=
  if truthyRegion region then df.filter (fun r => r.region == region.getD "") else df

/-- `sb_data = dff[dff["total_casualties"] > 0]`. -/
def sbData (dff : List Row) : List Row :=
  dff.filter (fun r => 0 < r.totalCasualties)

/-- `Series.max()`; `none` models the NaN a reduction over an empty series
returns. -/
def seriesMax : List Nat → Option Nat
  | [] => none
  | a :: l =>
    match seriesMax l with
    | none => some a
    | some m => some (max a m)

/-- The fixed ascending boundary ladder `[0, 1, 5, 10, 20, 50, 100, 200, 500, 1000]`. -/
def binLadder : List Nat := [0, 1, 5, 10, 20, 50, 100, 200, 500, 1000]

/-- The fixed ordered label list for the casualty buckets. -/
def fullLabels : List String :=
  ["1", "2–5", "6–10", "11–20", "21–50", "51–100", "101–200", "201–500", "501–1000", "1000+"]

/-- `bins = [b for b in bins if b <= max_cas]` followed by
`if bins and bins[-1] < max_cas: bins.append(max_cas + 1)`.
When `max_cas` is NaN (`none`), every comparison `b <= max_cas` is false,
so the retained edge list is empty. -/
def buildBins (maxCas : Option Nat) : List Nat :=
  match maxCas with
  | none => []
  | some m =>
    let bs := binLadder.filter (fun b => b ≤ m)
    match bs.getLast? with
    | none => bs
    | some b => if b < m then bs ++ [m + 1] else bs

/-- Python list slicing `l[:k]` with a possibly negative bound, as in
`labels[:len(bins)-1]`. -/
def pySliceTo (l : List String) (k : Int) : List String :=
  if 0 ≤ k then l.take k.toNat else l.take (l.length - (-k).toNat)

/-- `labels = labels[:len(bins)-1]` (Python slicing: for an empty edge list
this is `labels[:-1]`, the first nine labels). -/
def labelsFor (bins : List Nat) : List String :=
  pySliceTo fullLabels ((bins.length : Int) - 1)

/-- `searchsorted(bins, v, side="left")` on an ascending edge list: the
number of edges strictly below `v`. -/
def searchSortedLeft (bins : List Nat) (v : Nat) : Nat :=
  (bins.filter (fun b => b < v)).length

/-- The bucket label `pd.cut(..., bins, labels, include_lowest=True)` gives
one value: interval `i` is `(bins[i], bins[i+1]]`, a value equal to
`bins[0]` is pulled into the first interval (`include_lowest`), and a value
outside every interval gets NaN (`none`). -/
def cutValue (bins : List Nat) (labels : List String) (v : Nat) : Option String :=
  let i := searchSortedLeft bins v
  let j := if bins.head? = some v then 1 else i
  if j = 0 ∨ j = bins.length then none else labels.get? (j - 1)

/-- `pd.cut(series, bins=bins, labels=labels, include_lowest=True)` over a
whole series.  With `include_lowest=True` pandas evaluates `bins[0]`, which
raises `IndexError` on an empty edge list; with a label list whose length
is not one fewer than the number of edges it raises `ValueError`. -/
def pdCut (xs : List Nat) (bins : List Nat) (labels : List String) :
    Except String (List (Option String)) :=
  match bins.head? with
  | none => .error "IndexError"
  | some _ =>
    if labels.length ≠ bins.length - 1 then .error "ValueError"
    else .ok (xs.map (cutValue bins labels))

/-- Stable insertion of `a` into `l`: `a` goes in front of the first
element `b` with `le a b`. -/
def insertSorted (le : α → α → Bool) (a : α) : List α → List α
  | [] => [a]
  | b :: l => if le a b then a :: b :: l else b :: insertSorted le a l

/-- Stable insertion sort with respect to the boolean relation `le`. -/
def sortBy (le : α → α → Bool) : List α → List α
  | [] => []
  | a :: l => insertSorted le a (sortBy le l)

/-- `groupby(keys).size()` with the default `sort=True`: the distinct
observed keys in sorted order, each with the number of occurrences. -/
def groupCounts [DecidableEq κ] (le : κ → κ → Bool) (keys : List κ) : List (κ × Nat) :=
  (sortBy le keys.dedup).map (fun k => (k, keys.count k))

/-- Comparison of strings, as pandas sorts object-dtype group keys. -/
def strLe (a b : String) : Bool := decide (a ≤ b)

/-- Lexicographic comparison on string pairs (two-level group keys). -/
def strPairLe (a b : String × String) : Bool :=
  decide (a.1 < b.1) || (a.1 == b.1 && decide (a.2 ≤ b.2))

/-- Comparison of `(casualty_range, Region)` group keys: `casualty_range`
is an ordered categorical, sorted by position in the label list, then by
region. -/
def distKeyLe (labels : List String) (a b : String × String) : Bool :=
  let ia := labels.indexOf a.1
  let ib := labels.indexOf b.1
  decide (ia < ib) || (ia == ib && decide (a.2 ≤ b.2))

/-- Lexicographic comparison on `(year, Region)` group keys. -/
def yearRegionLe (a b : Nat × String) : Bool :=
  decide (a.1 < b.1) || (a.1 == b.1 && decide (a.2 ≤ b.2))

/-- The `(casualty_range, Region)` key of each positive-casualty row; a row
whose `casualty_range` is NaN carries no key (`groupby` drops NaN keys). -/
def distKeys (sb : List Row) (bins : List Nat) (labels : List String) :
    List (String × String) :=
  sb.filterMap (fun r =>
    (cutValue bins labels r.totalCasualties).map (fun lab => (lab, r.region)))

/-- The dynamic bucket edges of the current filtered table:
`max_cas = sb_data["total_casualties"].max()` fed into the edge
construction. -/
def binsOf (dff : List Row) : List Nat :=
  buildBins (seriesMax ((sbData dff).map (fun r => r.totalCasualties)))

/-- The truncated label list of the current filtered table. -/
def labelsOf (dff : List Row) : List String :=
  labelsFor (binsOf dff)

/-- Casualty distribution: `sb_data.groupby(["casualty_range", "Region"]).size()`. -/
def casualtyDistribution (dff : List Row) : List ((String × String) × Nat) :=
  groupCounts (distKeyLe (labelsOf dff)) (distKeys (sbData dff) (binsOf dff) (labelsOf dff))

/-- The `(Means of attack, Attack context)` key of a row, present exactly
when both fields are present. -/
def taxKey (r : Row) : Option (String × String) :=
  match r.meansOfAttack, r.attackContext with
  | some a, some b => some (a, b)
  | _, _ => none

/-- Attack taxonomy: restrict to rows with both `Means of attack` and
`Attack context` present, then `groupby(["Means of attack", "Attack context"]).size()`. -/
def attackTaxonomy (dff : List Row) : List ((String × String) × Nat) :=
  groupCounts strPairLe (dff.filterMap taxKey)

/-- Geographic count: `dff.groupby("Country").size()`. -/
def geographicCount (dff : List Row) : List (String × Nat) :=
  groupCounts strLe (dff.map (fun r => r.country))

/-- The month-period ordinal `dff["date"].dt.to_period("M")` assigns a row:
`year * 12 + (month - 1)`. -/
def monthIdx (r : Row) : Nat := r.year * 12 + (r.month - 1)

/-- Monthly trend: group by month period, count `Incident ID` and sum
`total_casualties`, then `to_timestamp()` the period, i.e. normalize the
key to the first day of the month.  Group keys come out sorted ascending. -/
def monthlyTrend (dff : List Row) : List ((Nat × Nat × Nat) × Nat × Nat) :=
  (sortBy (fun a b => decide (a ≤ b)) (dff.map monthIdx).dedup).map (fun k =>
    ((k / 12, k % 12 + 1, 1),
     (dff.filter (fun r => monthIdx r == k)).length,
     ((dff.filter (fun r => monthIdx r == k)).map (fun r => r.totalCasualties)).sum))

/-- Yearly-by-region: `dff.groupby(["year", "Region"]).agg({"Incident ID": "count"})`. -/
def yearlyByRegion (dff : List Row) : List ((Nat × String) × Nat) :=
  groupCounts yearRegionLe (dff.map (fun r => (r.year, r.region)))

/-- Actor profile: `dff.groupby("Actor type").agg({"Total affected": "sum",
"Incident ID": "count"})`. -/
def actorProfile (dff : List Row) : List (String × Nat × Nat) :=
  (sortBy strLe (dff.map (fun r => r.actorType)).dedup).map (fun a =>
    (a,
     ((dff.filter (fun r => r.actorType == a)).map (fun r => r.totalAffected)).sum,
     (dff.filter (fun r => r.actorType == a)).length))

/-- `heatdata.sort_values(by="count", ascending=False).iloc[0]["Country"]`:
a descending sort on the count column, then the first row's country;
`none` models the `IndexError` `.iloc[0]` raises on an empty frame.
The model sorts stably (pandas `nargsort` reverses the values, argsorts,
and reverses the indexer again, so ties keep aggregate order whenever the
underlying argsort is stable); this is exact for frames below numpy's
16-element insertion-sort cutoff, while on larger frames the program's
quicksort tie order is unspecified and only the maximality of the leading
row carries over. -/
def topCountry (heat : List (String × Nat)) : Option String :=
  ((sortBy (fun a b => decide (b.2 ≤ a.2)) heat).head?).map (fun p => p.1)

/-- The shaped datasets `update_visuals` derives from the filtered table
(the data behind each figure, stripped of the rendering calls). -/
structure Views where
  casualty_distribution : List ((String × String) × Nat)
  attack_taxonomy : List ((String × String) × Nat)
  geographic_count : List (String × Nat)
  monthly_trend : List ((Nat × Nat × Nat) × Nat × Nat)
  yearly_by_region : List ((Nat × String) × Nat)
  actor_profile : List (String × Nat × Nat)
  top_country_insight : String
deriving DecidableEq, Repr

/-- The body of `update_visuals` after the region filter: bin the
positive-casualty subset (`pd.cut` may raise), build the six aggregates,
and read the top country off the geographic counts (`.iloc[0]` raises on
an empty frame, modelled by the `none` branch). -/
def computeFrom (dff : List Row) : Except String Views :=
  match pdCut ((sbData dff).map (fun r => r.totalCasualties)) (binsOf dff) (labelsOf dff) with
  | .error e => .error e
  | .ok _ =>
    match topCountry (geographicCount dff) with
    | none => .error "IndexError"
    | some top =>
      .ok { casualty_distribution := casualtyDistribution dff
            attack_taxonomy := attackTaxonomy dff
            geographic_count := geographicCount dff
            monthly_trend := monthlyTrend dff
            yearly_by_region := yearlyByRegion dff
            actor_profile := actorProfile dff
            top_country_insight := top }

/-- The data pipeline of the `update_visuals` callback: filter the loaded
table by the selected region, then derive every view from the filtered
table. -/
def update_visuals (df : List Row) (region : Option String) : Except String Views :=
  computeFrom (regionFilter df region)

/-- The spec's name for the pipeline interface. -/
def compute_views (df : List Row) (region : Option String) : Except String Views :=
  update_visuals df region

/-- State-passing view of the callback: the module-level table `df` is only
read (the body starts with `dff = df.copy()` and every later assignment
targets a derived frame), so the callback returns its outputs together with
the table it leaves behind, which is the table it was given. -/
def update_visuals_st (df : List Row) (region : Option String) :
    Except String Views × List Row :=
  (update_visuals df region, df)

/-- The last element of an edge list (`bins[-1]`); `0` for an empty list. -/
def lastVal : List Nat → Nat
  | [] => 0
  | [a] => a
  | _ :: b :: t => lastVal (b :: t)

/-- Membership of `v` in bucket `i`, the half-open interval
`(bins[i], bins[i+1]]`. -/
def inBucket (bins : List Nat) (i v : Nat) : Prop :=
  i + 1 < bins.length ∧ bins.getD i 0 < v ∧ v ≤ bins.getD (i + 1) 0

/-- The first row of a count frame attaining the maximum count (the spec's
reading of "first-encountered maximum wins"); `none` on an empty frame. -/
def firstMax : List (String × Nat) → Option (String × Nat)
  | [] => none
  | a :: l =>
    match firstMax l with
    | none => some a
    | some b => if b.2 ≤ a.2 then some a else some b

/-- Scenario 1 of the spec: one row, region `"X"`, `total_casualties = 3`,
`country = "Italy"`. -/
def italyRow : Row :=
  { incidentId := 1, year := 2024, month := 1, day := 15, country := "Italy",
    region := "X", meansOfAttack := none, attackContext := none,
    actorType := "A", totalCasualties := 3, totalAffected := 0 }

/-- A row with zero casualties, for Scenario 2 of the spec. -/
def zeroRow (i : Nat) : Row :=
  { incidentId := i, year := 2024, month := 1, day := 1, country := "C",
    region := "R", meansOfAttack := none, attackContext := none,
    actorType := "A", totalCasualties := 0, totalAffected := 0 }

/-- Scenario 2 of the spec: ten rows, every one with `total_casualties = 0`. -/
def zeroTable : List Row := (List.range 10).map zeroRow

/-! ### Helper lemmas about the sorting and grouping primitives -/

theorem mem_insertSorted {le : α → α → Bool} {a b : α} {l : List α} :
    b ∈ insertSorted le a l ↔ b = a ∨ b ∈ l := by
  induction l with
  | nil => simp [insertSorted]
  | cons c t ih =>
    simp only [insertSorted]
    split
    · simp [List.mem_cons]
    · simp only [List.mem_cons, ih]
      tauto

theorem insertSorted_perm (le : α → α → Bool) (a : α) (l : List α) :
    List.Perm (insertSorted le a l) (a :: l) := by
  induction l with
  | nil => rfl
  | cons b t ih =>
    simp only [insertSorted]
    split
    · exact List.Perm.refl _
    · exact (ih.cons b).trans (List.Perm.swap a b t)

theorem sortBy_perm (le : α → α → Bool) (l : List α) : List.Perm (sortBy le l) l := by
  induction l with
  | nil => rfl
  | cons a t ih => exact (insertSorted_perm le a (sortBy le t)).trans (ih.cons a)

theorem mem_sortBy {le : α → α → Bool} {a : α} {l : List α} :
    a ∈ sortBy le l ↔ a ∈ l :=
  (sortBy_perm le l).mem_iff

theorem sortBy_eq_nil_iff {le : α → α → Bool} {l : List α} :
    sortBy le l = [] ↔ l = [] := by
  constructor
  · intro h
    have hl := (sortBy_perm le l).length_eq
    rw [h] at hl
    exact List.length_eq_zero.mp hl.symm
  · intro h
    subst h
    rfl

theorem seriesMax_cons (a : Nat) (l : List Nat) :
    seriesMax (a :: l) = match seriesMax l with
      | none => some a
      | some m => some (max a m) := rfl

theorem seriesMax_eq_none_iff {l : List Nat} : seriesMax l = none ↔ l = [] := by
  cases l with
  | nil => simp [seriesMax]
  | cons a t =>
    rw [seriesMax_cons]
    cases seriesMax t <;> simp

theorem seriesMax_mem {l : List Nat} {m : Nat} (h : seriesMax l = some m) : m ∈ l := by
  induction l generalizing m with
  | nil => simp [seriesMax] at h
  | cons a t ih =>
    rw [seriesMax_cons] at h
    cases ht : seriesMax t with
    | none =>
      rw [ht] at h
      cases h
      exact List.mem_cons_self a t
    | some k =>
      rw [ht] at h
      cases h
      rcases Nat.le_total a k with hak | hka
      · rw [Nat.max_eq_right hak]
        exact List.mem_cons_of_mem a (ih ht)
      · rw [Nat.max_eq_left hka]
        exact List.mem_cons_self a t

theorem seriesMax_ub {l : List Nat} {m : Nat} (h : seriesMax l = some m) :
    ∀ x ∈ l, x ≤ m := by
  induction l generalizing m with
  | nil => simp
  | cons a t ih =>
    rw [seriesMax_cons] at h
    cases ht : seriesMax t with
    | none =>
      rw [ht] at h
      cases h
      have ht0 : t = [] := seriesMax_eq_none_iff.mp ht
      subst ht0
      intro x hx
      rcases List.mem_cons.mp hx with hx | hx
      · exact Nat.le_of_eq hx
      · simp at hx
    | some k =>
      rw [ht] at h
      cases h
      intro x hx
      rcases List.mem_cons.mp hx with hx | hx
      · exact hx ▸ Nat.le_max_left a k
      · exact Nat.le_trans (ih ht x hx) (Nat.le_max_right a k)

theorem seriesMax_const {l : List Nat} {v : Nat} (hne : l ≠ []) (h : ∀ x ∈ l, x = v) :
    seriesMax l = some v := by
  induction l with
  | nil => cases hne rfl
  | cons a t ih =>
    have ha : a = v := h a (List.mem_cons_self a t)
    cases t with
    | nil => simp [seriesMax, ha]
    | cons b t2 =>
      have ht := ih (by simp) (fun x hx => h x (List.mem_cons_of_mem a hx))
      rw [seriesMax_cons, ht, ha]
      simp

/-! ### Claim theorems -/

/-- Claim C1 (code bug): on an empty filtered table the pipeline does not
degrade to empty aggregates; `pd.cut` is called with an empty edge list
(`max_cas` is NaN, so every ladder boundary is dropped) and raises, both
for an empty table and for a region selection matching no rows. -/
theorem c1_empty_input_raises :
    compute_views [] none = .error "IndexError" ∧
    compute_views [italyRow] (some "Nowhere") = .error "IndexError" :=
  ⟨rfl, rfl⟩

/-- Claim C2 (code bug): on a non-empty table whose rows all have zero
casualties the positive-casualty subset is empty, and the pipeline raises
inside `pd.cut` instead of returning an empty casualty distribution with
intact geographic counts. -/
theorem c2_all_zero_casualties_raise :
    sbData zeroTable = [] ∧ zeroTable.length = 10 ∧
    compute_views zeroTable none = .error "IndexError" :=
  ⟨rfl, rfl, rfl⟩

/-- Claim C10: a falsy region selection other than `None` — the empty
string — is treated exactly like no selection: no filtering happens and
the whole pipeline output is identical to the unfiltered one. -/
theorem c10_empty_string_region_is_no_filter (df : List Row) :
    regionFilter df (some "") = df ∧
    compute_views df (some "") = compute_views df none := by
  have h : regionFilter df (some "") = df := by simp [regionFilter, truthyRegion]
  refine ⟨h, ?_⟩
  unfold compute_views update_visuals
  rw [h]
  rfl

theorem groupCounts_map_snd_sum [DecidableEq κ] (le : κ → κ → Bool) (keys : List κ) :
    ((groupCounts le keys).map (fun p => p.2)).sum = keys.length := by
  unfold groupCounts
  rw [List.map_map]
  change ((sortBy le keys.dedup).map (fun k => keys.count k)).sum = keys.length
  have hperm := (sortBy_perm le keys.dedup).map (fun k => keys.count k)
  rw [hperm.sum_eq]
  exact List.sum_map_count_dedup_eq_length keys

theorem length_filterMap_taxKey (dff : List Row) :
    (dff.filterMap taxKey).length =
      (dff.filter (fun r => r.meansOfAttack.isSome && r.attackContext.isSome)).length := by
  induction dff with
  | nil => rfl
  | cons r t ih =>
    cases hmo : r.meansOfAttack with
    | none =>
      cases hac : r.attackContext <;>
        simp [taxKey, hmo, hac, ih, List.filterMap_cons, List.filter_cons]
    | some a =>
      cases hac : r.attackContext <;>
        simp [taxKey, hmo, hac, ih, List.filterMap_cons, List.filter_cons]

/-- Claim C7: each count-based aggregate's counts add up to the number of
filtered rows passing its inclusion predicate — all rows for the
geographic count, rows with both taxonomy fields present for the attack
taxonomy. -/
theorem c7_aggregate_totals (dff : List Row) :
    ((geographicCount dff).map (fun p => p.2)).sum = dff.length ∧
    ((attackTaxonomy dff).map (fun p => p.2)).sum =
      (dff.filter (fun r => r.meansOfAttack.isSome && r.attackContext.isSome)).length := by
  constructor
  · rw [geographicCount, groupCounts_map_snd_sum, List.length_map]
  · rw [attackTaxonomy, groupCounts_map_snd_sum, length_filterMap_taxKey]

/-- Claim C6, counterexample: the claim quantifies over every optional
region value, but the falsy empty-string selection is not filtered at all
(`if region:`), so the result is not the subset of rows whose region
equals the given value. -/
theorem c6_counterexample :
    regionFilter [italyRow] (some "") = [italyRow] ∧
    [italyRow].filter (fun r => r.region == "") = [] ∧
    regionFilter [italyRow] (some "") ≠ [italyRow].filter (fun r => r.region == "") :=
  ⟨rfl, rfl, by decide⟩

/-- Claim C6, amended: for a truthy (non-empty) region value the filter
returns exactly the matching subset; `None` and the empty string leave the
table unchanged; and the aggregates draw only on filtered rows (shown for
the geographic count, whose keys all come from filtered rows). -/
theorem c6_region_filter_exact (df : List Row) (region : Option String) :
    regionFilter df none = df ∧
    regionFilter df (some "") = df ∧
    (∀ s, s ≠ "" → regionFilter df (some s) = df.filter (fun r => r.region == s)) ∧
    (∀ r, r ∈ regionFilter df region → r ∈ df) ∧
    (∀ s r, s ≠ "" → r ∈ regionFilter df (some s) → r.region = s) ∧
    (∀ p, p ∈ geographicCount (regionFilter df region) →
      ∃ r, r ∈ regionFilter df region ∧ r.country = p.1) := by
  refine ⟨rfl, by simp [regionFilter, truthyRegion], ?_, ?_, ?_, ?_⟩
  · intro s hs
    simp [regionFilter, truthyRegion, hs]
  · intro r hr
    unfold regionFilter at hr
    split at hr
    · exact List.mem_of_mem_filter hr
    · exact hr
  · intro s r hs hr
    have ht : truthyRegion (some s) = true := by simp [truthyRegion, hs]
    rw [regionFilter, ht] at hr
    simp only [if_true] at hr
    simpa using List.of_mem_filter hr
  · intro p hp
    unfold geographicCount groupCounts at hp
    rcases List.mem_map.mp hp with ⟨k, hk, hpk⟩
    have hk2 : k ∈ (regionFilter df region).map (fun r => r.country) :=
      List.mem_dedup.mp (mem_sortBy.mp hk)
    rcases List.mem_map.mp hk2 with ⟨r, hr, hrk⟩
    refine ⟨r, hr, ?_⟩
    rw [← hpk]
    exact hrk

/-- Claim C9: the pipeline is a pure function — repeated runs on the same
input are identical, the callback leaves the module-level table as it
found it, and every successful output's views are exactly the stage
functions applied afresh to the filtered table (no cross-stage state). -/
theorem c9_pure_pipeline (df : List Row) (region : Option String) :
    compute_views df region = compute_views df region ∧
    (update_visuals_st df region).2 = df ∧
    (∀ v, compute_views df region = .ok v →
      v.casualty_distribution = casualtyDistribution (regionFilter df region) ∧
      v.attack_taxonomy = attackTaxonomy (regionFilter df region) ∧
      v.geographic_count = geographicCount (regionFilter df region) ∧
      v.monthly_trend = monthlyTrend (regionFilter df region) ∧
      v.yearly_by_region = yearlyByRegion (regionFilter df region) ∧
      v.actor_profile = actorProfile (regionFilter df region)) := by
  refine ⟨rfl, rfl, ?_⟩
  intro v h
  unfold compute_views update_visuals computeFrom at h
  split at h
  · simp at h
  · split at h
    · simp at h
    · cases h
      exact ⟨rfl, rfl, rfl, rfl, rfl, rfl⟩

theorem firstMax_cons (a : String × Nat) (l : List (String × Nat)) :
    firstMax (a :: l) = match firstMax l with
      | none => some a
      | some b => if b.2 ≤ a.2 then some a else some b := rfl

theorem firstMax_eq_none_iff {l : List (String × Nat)} : firstMax l = none ↔ l = [] := by
  cases l with
  | nil => simp [firstMax]
  | cons a t =>
    rw [firstMax_cons]
    cases firstMax t with
    | none => simp
    | some b =>
      simp only []
      split <;> simp

theorem head?_insertSorted (le : α → α → Bool) (a : α) (l : List α) :
    (insertSorted le a l).head? = some (match l.head? with
      | none => a
      | some b => if le a b then a else b) := by
  cases l with
  | nil => rfl
  | cons b t =>
    simp only [insertSorted, List.head?_cons]
    split <;> rfl

theorem head?_sortBy_desc (l : List (String × Nat)) :
    (sortBy (fun a b => decide (b.2 ≤ a.2)) l).head? = firstMax l := by
  induction l with
  | nil => rfl
  | cons a t ih =>
    simp only [sortBy]
    rw [head?_insertSorted, firstMax_cons, ← ih]
    cases (sortBy (fun a b => decide (b.2 ≤ a.2)) t).head? with
    | none => rfl
    | some b =>
      simp only []
      by_cases hb : b.2 ≤ a.2 <;> simp [hb]

theorem firstMax_ub {l : List (String × Nat)} {p : String × Nat}
    (h : firstMax l = some p) : ∀ q ∈ l, q.2 ≤ p.2 := by
  induction l generalizing p with
  | nil => simp [firstMax] at h
  | cons a t ih =>
    rw [firstMax_cons] at h
    cases ht : firstMax t with
    | none =>
      rw [ht] at h
      cases h
      have ht0 : t = [] := firstMax_eq_none_iff.mp ht
      subst ht0
      intro q hq
      rcases List.mem_cons.mp hq with hq | hq
      · exact hq ▸ Nat.le_refl _
      · simp at hq
    | some b =>
      rw [ht] at h
      have h2 : (if b.2 ≤ a.2 then some a else some b) = some p := h
      by_cases hba : b.2 ≤ a.2
      · rw [if_pos hba] at h2
        cases h2
        intro q hq
        rcases List.mem_cons.mp hq with hq | hq
        · exact hq ▸ Nat.le_refl _
        · exact Nat.le_trans (ih ht q hq) hba
      · rw [if_neg hba] at h2
        cases h2
        intro q hq
        rcases List.mem_cons.mp hq with hq | hq
        · exact hq ▸ Nat.le_of_lt (Nat.not_le.mp hba)
        · exact ih ht q hq

theorem firstMax_decomp {l : List (String × Nat)} {p : String × Nat}
    (h : firstMax l = some p) :
    ∃ pre post, l = pre ++ p :: post ∧ ∀ q ∈ pre, q.2 < p.2 := by
  induction l generalizing p with
  | nil => simp [firstMax] at h
  | cons a t ih =>
    rw [firstMax_cons] at h
    cases ht : firstMax t with
    | none =>
      rw [ht] at h
      cases h
      exact ⟨[], t, rfl, by simp⟩
    | some b =>
      rw [ht] at h
      have h2 : (if b.2 ≤ a.2 then some a else some b) = some p := h
      by_cases hba : b.2 ≤ a.2
      · rw [if_pos hba] at h2
        cases h2
        exact ⟨[], t, rfl, by simp⟩
      · rw [if_neg hba] at h2
        cases h2
        obtain ⟨pre, post, heq, hlt⟩ := ih ht
        refine ⟨a :: pre, post, by rw [heq]; rfl, ?_⟩
        intro q hq
        rcases List.mem_cons.mp hq with hq | hq
        · exact hq ▸ Nat.not_le.mp hba
        · exact hlt q hq

/-- In the model the narration's country is the first row in aggregate
order attaining the maximum count.  This equation describes the model's
stable tie-break, which coincides with the program only on frames below
numpy's insertion-sort cutoff; on larger frames the program's quicksort
tie order is unspecified, so no universal first-encountered statement is
claimed of the program. -/
theorem topCountry_eq_firstMax (agg : List (String × Nat)) :
    topCountry agg = (firstMax agg).map (fun p => p.1) := by
  unfold topCountry
  rw [head?_sortBy_desc]

/-- On a non-empty count frame the narration's country attains the maximum
count.  Unlike the tie-break, this holds for any descending reordering,
stable or not, so it is the part of the `iloc[0]` behavior the program
guarantees at every frame size. -/
theorem topCountry_attains_max (agg : List (String × Nat)) (hne : agg ≠ []) :
    ∃ p, topCountry agg = some p.1 ∧ p ∈ agg ∧ ∀ q ∈ agg, q.2 ≤ p.2 := by
  cases hfm : firstMax agg with
  | none => exact absurd (firstMax_eq_none_iff.mp hfm) hne
  | some p =>
    obtain ⟨pre, post, heq, hlt⟩ := firstMax_decomp hfm
    refine ⟨p, by rw [topCountry_eq_firstMax, hfm]; rfl, ?_, firstMax_ub hfm⟩
    rw [heq]
    exact List.mem_append.mpr (Or.inr (List.mem_cons_self p post))

/-- The maximality of the narration's country at a concrete two-way tie. -/
theorem topCountry_attains_max_example :
    ∃ p, topCountry [("Austria", 1), ("Belgium", 1)] = some p.1 ∧
      p ∈ [("Austria", 1), ("Belgium", 1)] ∧
      ∀ q ∈ [("Austria", 1), ("Belgium", 1)], q.2 ≤ p.2 :=
  topCountry_attains_max [("Austria", 1), ("Belgium", 1)] (by decide)

theorem binLadder_pairwise : binLadder.Pairwise (· < ·) := by decide

theorem lastVal_cons_cons (a b : Nat) (t : List Nat) :
    lastVal (a :: b :: t) = lastVal (b :: t) := rfl

theorem lastVal_append_single (l : List Nat) (b : Nat) : lastVal (l ++ [b]) = b := by
  induction l with
  | nil => rfl
  | cons a t ih =>
    cases t with
    | nil => rfl
    | cons c t2 => exact ih

theorem lastVal_mem {l : List Nat} (h : l ≠ []) : lastVal l ∈ l := by
  induction l with
  | nil => cases h rfl
  | cons a t ih =>
    cases t with
    | nil => simp [lastVal]
    | cons b t2 =>
      rw [lastVal_cons_cons]
      exact List.mem_cons_of_mem a (ih (by simp))

theorem getLast?_eq_some_lastVal {l : List Nat} (h : l ≠ []) :
    l.getLast? = some (lastVal l) := by
  induction l with
  | nil => cases h rfl
  | cons a t ih =>
    cases t with
    | nil => rfl
    | cons b t2 =>
      rw [List.getLast?_cons_cons, lastVal_cons_cons]
      exact ih (by simp)

theorem lastVal_eq_getD {l : List Nat} (h : l ≠ []) :
    lastVal l = l.getD (l.length - 1) 0 := by
  induction l with
  | nil => cases h rfl
  | cons a t ih =>
    cases t with
    | nil => rfl
    | cons b t2 =>
      rw [lastVal_cons_cons, ih (by simp),
        show (a :: b :: t2).length - 1 = ((b :: t2).length - 1) + 1 from by simp,
        List.getD_cons_succ]

theorem getD_lt_of_pairwise {bins : List Nat} (hp : bins.Pairwise (· < ·))
    {i j : Nat} (hij : i < j) (hj : j < bins.length) :
    bins.getD i 0 < bins.getD j 0 := by
  have hi : i < bins.length := Nat.lt_trans hij hj
  have hg := List.pairwise_iff_get.mp hp ⟨i, hi⟩ ⟨j, hj⟩ hij
  rw [List.getD_eq_getElem bins 0 hi, List.getD_eq_getElem bins 0 hj]
  simpa [List.get_eq_getElem] using hg

theorem getD_le_of_pairwise {bins : List Nat} (hp : bins.Pairwise (· < ·))
    {i j : Nat} (hij : i ≤ j) (hj : j < bins.length) :
    bins.getD i 0 ≤ bins.getD j 0 := by
  rcases Nat.eq_or_lt_of_le hij with h | h
  · rw [h]
  · exact Nat.le_of_lt (getD_lt_of_pairwise hp h hj)

theorem inBucket_cons_succ {bins : List Nat} {a i v : Nat} :
    inBucket (a :: bins) (i + 1) v ↔ inBucket bins i v := by
  unfold inBucket
  simp only [List.getD_cons_succ, List.length_cons]
  constructor
  · rintro ⟨h1, h2, h3⟩
    exact ⟨by omega, h2, h3⟩
  · rintro ⟨h1, h2, h3⟩
    exact ⟨by omega, h2, h3⟩

theorem exists_inBucket {l : List Nat} : ∀ a v : Nat, a < v → v ≤ lastVal (a :: l) →
    ∃ i, inBucket (a :: l) i v := by
  induction l with
  | nil =>
    intro a v hav hle
    simp only [lastVal] at hle
    omega
  | cons b t ih =>
    intro a v hav hle
    by_cases hvb : v ≤ b
    · refine ⟨0, ?_, hav, hvb⟩
      simp only [List.length_cons]
      omega
    · obtain ⟨i, hi⟩ :=
        ih b v (Nat.not_le.mp hvb) (by rw [← lastVal_cons_cons a b t]; exact hle)
      exact ⟨i + 1, inBucket_cons_succ.mpr hi⟩

theorem inBucket_bounds {bins : List Nat} (hp : bins.Pairwise (· < ·))
    (hhead : bins.getD 0 0 = 0) {i v : Nat} (hib : inBucket bins i v) :
    1 ≤ v ∧ v ≤ lastVal bins := by
  obtain ⟨hlen, hlow, hhigh⟩ := hib
  constructor
  · rcases Nat.eq_zero_or_pos i with hi0 | hipos
    · subst hi0
      rw [hhead] at hlow
      omega
    · have h0i : bins.getD 0 0 < bins.getD i 0 :=
        getD_lt_of_pairwise hp hipos (by omega)
      rw [hhead] at h0i
      omega
  · have hne : bins ≠ [] := by
      intro h
      rw [h] at hlen
      simp at hlen
    rw [lastVal_eq_getD hne]
    have hle : bins.getD (i + 1) 0 ≤ bins.getD (bins.length - 1) 0 :=
      getD_le_of_pairwise hp (by omega) (by omega)
    omega

theorem inBucket_disjoint {bins : List Nat} (hp : bins.Pairwise (· < ·))
    {v i j : Nat} (hij : i < j) (hi : inBucket bins i v) (hj : inBucket bins j v) :
    False := by
  have h1 : bins.getD (i + 1) 0 ≤ bins.getD j 0 :=
    getD_le_of_pairwise hp (by omega) (by have := hj.1; omega)
  have h2 := hi.2.2
  have h3 := hj.2.1
  omega

theorem inBucket_unique {bins : List Nat} (hp : bins.Pairwise (· < ·))
    {v i j : Nat} (hi : inBucket bins i v) (hj : inBucket bins j v) : i = j := by
  rcases Nat.lt_trichotomy i j with h | h | h
  · exact absurd (inBucket_disjoint hp h hi hj) (by simp)
  · exact h
  · exact absurd (inBucket_disjoint hp h hj hi) (by simp)

theorem buildBins_spec (m : Nat) (hm1 : 1 ≤ m) :
    (buildBins (some m)).Pairwise (· < ·) ∧
    (∃ t, buildBins (some m) = 0 :: 1 :: t) ∧
    2 ≤ (buildBins (some m)).length ∧ (buildBins (some m)).length ≤ 11 ∧
    m ≤ lastVal (buildBins (some m)) ∧ lastVal (buildBins (some m)) ≤ m + 1 := by
  have hbase : binLadder.filter (fun b => decide (b ≤ m)) =
      0 :: 1 :: ([5, 10, 20, 50, 100, 200, 500, 1000].filter (fun b => decide (b ≤ m))) := by
    simp [binLadder, List.filter_cons, hm1]
  have hpb : (binLadder.filter (fun b => decide (b ≤ m))).Pairwise (· < ·) :=
    List.Pairwise.filter _ binLadder_pairwise
  have hmem : ∀ x ∈ binLadder.filter (fun b => decide (b ≤ m)), x ≤ m := by
    intro x hx
    simpa using List.of_mem_filter hx
  have hbne : binLadder.filter (fun b => decide (b ≤ m)) ≠ [] := by
    rw [hbase]
    simp
  have hbb : buildBins (some m) =
      if lastVal (binLadder.filter (fun b => decide (b ≤ m))) < m then
        binLadder.filter (fun b => decide (b ≤ m)) ++ [m + 1]
      else binLadder.filter (fun b => decide (b ≤ m)) := by
    simp only [buildBins]
    rw [getLast?_eq_some_lastVal hbne]
  have hlvm : lastVal (binLadder.filter (fun b => decide (b ≤ m))) ≤ m :=
    hmem _ (lastVal_mem hbne)
  have hlen2 : 2 ≤ (binLadder.filter (fun b => decide (b ≤ m))).length := by
    rw [hbase]
    simp
  have hlen10 : (binLadder.filter (fun b => decide (b ≤ m))).length ≤ 10 :=
    List.length_filter_le _ binLadder
  by_cases hlt : lastVal (binLadder.filter (fun b => decide (b ≤ m))) < m
  · rw [hbb, if_pos hlt]
    refine ⟨?_, ?_, ?_, ?_, ?_, ?_⟩
    · refine List.pairwise_append.mpr ⟨hpb, by simp, ?_⟩
      intro a ha b hb
      simp only [List.mem_singleton] at hb
      subst hb
      have := hmem a ha
      omega
    · obtain ⟨t, ht⟩ : ∃ t, binLadder.filter (fun b => decide (b ≤ m)) = 0 :: 1 :: t :=
        ⟨_, hbase⟩
      exact ⟨t ++ [m + 1], by rw [ht]; simp⟩
    · rw [List.length_append]
      omega
    · rw [List.length_append]
      simp only [List.length_singleton]
      omega
    · rw [lastVal_append_single]
      omega
    · rw [lastVal_append_single]
  · rw [hbb, if_neg hlt]
    have hlv : lastVal (binLadder.filter (fun b => decide (b ≤ m))) = m := by omega
    exact ⟨hpb, ⟨_, hbase⟩, hlen2, by omega, by omega, by omega⟩

theorem labelsFor_length {bins : List Nat} (h2 : 2 ≤ bins.length)
    (h11 : bins.length ≤ 11) : (labelsFor bins).length = bins.length - 1 := by
  unfold labelsFor pySliceTo
  rw [if_pos (by omega : (0 : Int) ≤ (bins.length : Int) - 1)]
  rw [List.length_take]
  have ht : ((bins.length : Int) - 1).toNat = bins.length - 1 := by omega
  have hf : fullLabels.length = 10 := by rfl
  rw [ht, hf]
  omega

theorem cutValue_isSome {bins : List Nat} {labels : List String} {v : Nat}
    (_hp : bins.Pairwise (· < ·)) (hshape : ∃ t, bins = 0 :: 1 :: t)
    (hllen : labels.length = bins.length - 1)
    (hv1 : 1 ≤ v) (hvlast : v ≤ lastVal bins) :
    (cutValue bins labels v).isSome := by
  obtain ⟨t, hbins⟩ := hshape
  have hhead : bins.head? = some 0 := by rw [hbins]; rfl
  have hne : ¬ bins.head? = some v := by
    rw [hhead]
    intro hc
    have : (0 : Nat) = v := by injection hc
    omega
  have hi1 : 1 ≤ searchSortedLeft bins v := by
    unfold searchSortedLeft
    have h0 : (0 : Nat) ∈ bins.filter (fun b => decide (b < v)) := by
      refine List.mem_filter.mpr ⟨by rw [hbins]; simp, by simpa using hv1⟩
    have := List.length_pos.mpr (List.ne_nil_of_mem h0)
    omega
  have hi2 : searchSortedLeft bins v < bins.length := by
    unfold searchSortedLeft
    refine List.length_filter_lt_length_iff_exists.2 ⟨lastVal bins, ?_, ?_⟩
    · exact lastVal_mem (by rw [hbins]; simp)
    · simp only [decide_eq_true_eq]
      omega
  simp only [cutValue]
  rw [if_neg hne]
  rw [if_neg (by omega : ¬ (searchSortedLeft bins v = 0 ∨ searchSortedLeft bins v = bins.length))]
  have hlast : searchSortedLeft bins v - 1 < labels.length := by
    rw [hllen]
    omega
  rw [List.get?_eq_get hlast]
  rfl

theorem sb_max_pos {dff : List Row} {m : Nat}
    (hm : seriesMax ((sbData dff).map (fun r => r.totalCasualties)) = some m) :
    1 ≤ m := by
  rcases List.mem_map.mp (seriesMax_mem hm) with ⟨r, hr, hrm⟩
  have hpos := List.of_mem_filter hr
  simp only [decide_eq_true_eq] at hpos
  omega

theorem sb_rows_le_max {dff : List Row} {m : Nat}
    (hm : seriesMax ((sbData dff).map (fun r => r.totalCasualties)) = some m) :
    ∀ r ∈ sbData dff, 1 ≤ r.totalCasualties ∧ r.totalCasualties ≤ m := by
  intro r hr
  constructor
  · have hpos := List.of_mem_filter hr
    simp only [decide_eq_true_eq] at hpos
    omega
  · exact seriesMax_ub hm _ (List.mem_map_of_mem _ hr)

/-- Claim C5, amended: on a filtered table with at least one positive
casualty count (maximum `m`), the bucket edges are strictly increasing;
the buckets are pairwise disjoint and contiguously cover exactly
`[1, bins[-1]]`, where the closing edge `bins[-1]` is `m` when `m` lies on
the fixed ladder and `m + 1` otherwise (so the covered range can exceed
the observed range `[1, m]` by one); every positive-casualty row falls in
exactly one bucket, and zero-casualty rows are excluded before binning. -/
theorem c5_binner_amended (dff : List Row) (m : Nat)
    (hm : seriesMax ((sbData dff).map (fun r => r.totalCasualties)) = some m) :
    (binsOf dff).Pairwise (· < ·) ∧
    m ≤ lastVal (binsOf dff) ∧ lastVal (binsOf dff) ≤ m + 1 ∧
    (∀ v, (∃ i, inBucket (binsOf dff) i v) ↔ 1 ≤ v ∧ v ≤ lastVal (binsOf dff)) ∧
    (∀ v i j, inBucket (binsOf dff) i v → inBucket (binsOf dff) j v → i = j) ∧
    (∀ r ∈ sbData dff,
      (cutValue (binsOf dff) (labelsOf dff) r.totalCasualties).isSome) ∧
    (∀ r ∈ dff, r.totalCasualties = 0 → r ∉ sbData dff) := by
  have hm1 : 1 ≤ m := sb_max_pos hm
  have hbin : binsOf dff = buildBins (some m) := by rw [binsOf, hm]
  obtain ⟨hp, hshape, hlen2, hlen11, hlml, hlmu⟩ := buildBins_spec m hm1
  simp only [labelsOf]
  rw [hbin]
  have hhead : (buildBins (some m)).getD 0 0 = 0 := by
    obtain ⟨t, ht⟩ := hshape
    rw [ht]
    rfl
  refine ⟨hp, hlml, hlmu, ?_, ?_, ?_, ?_⟩
  · intro v
    constructor
    · rintro ⟨i, hi⟩
      exact inBucket_bounds hp hhead hi
    · rintro ⟨hv1, hvl⟩
      obtain ⟨t, hbb⟩ := hshape
      rw [hbb]
      exact exists_inBucket 0 v (by omega) (by rw [← hbb]; exact hvl)
  · intro v i j hi hj
    exact inBucket_unique hp hi hj
  · intro r hr
    have hb := sb_rows_le_max hm r hr
    exact cutValue_isSome hp hshape (labelsFor_length hlen2 hlen11) hb.1
      (Nat.le_trans hb.2 hlml)
  · intro r _ h0 hmem
    have hpos := List.of_mem_filter hmem
    simp [h0] at hpos

/-- Witness for C5 at the one-row table with three casualties: the edges
are `[0, 1, 4]` and the maximum is 3. -/
theorem c5_witness :
    (binsOf [italyRow]).Pairwise (· < ·) ∧
    3 ≤ lastVal (binsOf [italyRow]) ∧ lastVal (binsOf [italyRow]) ≤ 3 + 1 ∧
    (∀ v, (∃ i, inBucket (binsOf [italyRow]) i v) ↔
      1 ≤ v ∧ v ≤ lastVal (binsOf [italyRow])) ∧
    (∀ v i j, inBucket (binsOf [italyRow]) i v →
      inBucket (binsOf [italyRow]) j v → i = j) ∧
    (∀ r ∈ sbData [italyRow],
      (cutValue (binsOf [italyRow]) (labelsOf [italyRow]) r.totalCasualties).isSome) ∧
    (∀ r ∈ [italyRow], r.totalCasualties = 0 → r ∉ sbData [italyRow]) :=
  c5_binner_amended [italyRow] 3 rfl

/-- Claim C5, counterexample to "cover exactly `[1, max]`": with a single
row of 3 casualties the maximum is 3, yet the value 4 falls in bucket 1
(the edges are `[0, 1, 4]`), so the buckets cover strictly more than
`[1, 3]`. -/
theorem c5_cover_exactly_counterexample :
    seriesMax ((sbData [italyRow]).map (fun r => r.totalCasualties)) = some 3 ∧
    inBucket (binsOf [italyRow]) 1 4 ∧ ¬ (1 ≤ 4 ∧ 4 ≤ 3) := by
  refine ⟨rfl, ⟨?_, ?_, ?_⟩, ?_⟩ <;> decide

/-- Claim C3: when every positive-casualty row of the filtered table shares
one casualty value, the whole casualty distribution lives in a single
bucket (one label for every group); and on the spec's one-row scenario the
pipeline yields the single bucket "2–5", geographic count
`[("Italy", 1)]` and the insight "Italy". -/
theorem c3_one_bucket (dff : List Row) (v : Nat) (hv : 1 ≤ v)
    (hall : ∀ r ∈ dff, 0 < r.totalCasualties → r.totalCasualties = v)
    (hne : sbData dff ≠ []) :
    (∃ lab, casualtyDistribution dff ≠ [] ∧
      ∀ p ∈ casualtyDistribution dff, p.1.1 = lab) ∧
    compute_views [italyRow] none = .ok
      { casualty_distribution := [(("2–5", "X"), 1)],
        attack_taxonomy := [],
        geographic_count := [("Italy", 1)],
        monthly_trend := [((2024, 1, 1), 1, 3)],
        yearly_by_region := [((2024, "X"), 1)],
        actor_profile := [("A", 0, 1)],
        top_country_insight := "Italy" } := by
  refine ⟨?_, rfl⟩
  have hsb : ∀ r ∈ sbData dff, r.totalCasualties = v := by
    intro r hr
    have hmem := List.mem_of_mem_filter hr
    have hpos := List.of_mem_filter hr
    simp only [decide_eq_true_eq] at hpos
    exact hall r hmem hpos
  have hmax : seriesMax ((sbData dff).map (fun r => r.totalCasualties)) = some v := by
    apply seriesMax_const
    · simpa using hne
    · intro x hx
      rcases List.mem_map.mp hx with ⟨r, hr, hxr⟩
      rw [← hxr]
      exact hsb r hr
  obtain ⟨hp, hshape, hlen2, hlen11, hlml, hlmu⟩ := buildBins_spec v hv
  have hbin : binsOf dff = buildBins (some v) := by rw [binsOf, hmax]
  have hlab2 : (cutValue (binsOf dff) (labelsOf dff) v).isSome := by
    simp only [labelsOf]
    rw [hbin]
    exact cutValue_isSome hp hshape (labelsFor_length hlen2 hlen11) hv hlml
  obtain ⟨lab, hlabeq⟩ := Option.isSome_iff_exists.mp hlab2
  refine ⟨lab, ?_, ?_⟩
  · unfold casualtyDistribution
    intro hcd
    have hkeys : distKeys (sbData dff) (binsOf dff) (labelsOf dff) = [] := by
      unfold groupCounts at hcd
      exact (List.dedup_eq_nil _).mp (sortBy_eq_nil_iff.mp (List.map_eq_nil_iff.mp hcd))
    obtain ⟨r0, t0, hsb0⟩ := List.exists_cons_of_ne_nil hne
    have hmem0 : (lab, r0.region) ∈ distKeys (sbData dff) (binsOf dff) (labelsOf dff) := by
      unfold distKeys
      refine List.mem_filterMap.mpr ⟨r0, by rw [hsb0]; exact List.mem_cons_self _ _, ?_⟩
      rw [hsb r0 (by rw [hsb0]; exact List.mem_cons_self _ _), hlabeq]
      rfl
    rw [hkeys] at hmem0
    simp at hmem0
  · intro p hp2
    unfold casualtyDistribution groupCounts at hp2
    rcases List.mem_map.mp hp2 with ⟨k, hk, hpk⟩
    have hk2 : k ∈ distKeys (sbData dff) (binsOf dff) (labelsOf dff) :=
      List.mem_dedup.mp (mem_sortBy.mp hk)
    unfold distKeys at hk2
    rcases List.mem_filterMap.mp hk2 with ⟨r, hr, hrk⟩
    rw [hsb r hr, hlabeq] at hrk
    have hk3 : (lab, r.region) = k := Option.some.inj hrk
    rw [← hpk, ← hk3]

/-- Witness for C3 at the one-row Italy table with casualty value 3. -/
theorem c3_witness :
    (∃ lab, casualtyDistribution [italyRow] ≠ [] ∧
      ∀ p ∈ casualtyDistribution [italyRow], p.1.1 = lab) ∧
    compute_views [italyRow] none = .ok
      { casualty_distribution := [(("2–5", "X"), 1)],
        attack_taxonomy := [],
        geographic_count := [("Italy", 1)],
        monthly_trend := [((2024, 1, 1), 1, 3)],
        yearly_by_region := [((2024, "X"), 1)],
        actor_profile := [("A", 0, 1)],
        top_country_insight := "Italy" } :=
  c3_one_bucket [italyRow] 3 (by decide) (by decide) (by decide)

theorem pairwise_insertSorted_natLe (a : Nat) {l : List Nat}
    (h : l.Pairwise (· ≤ ·)) :
    (insertSorted (fun x y => decide (x ≤ y)) a l).Pairwise (· ≤ ·) := by
  induction l with
  | nil => simp [insertSorted]
  | cons b t ih =>
    rcases List.pairwise_cons.mp h with ⟨hbt, hpt⟩
    simp only [insertSorted]
    split
    · rename_i hab
      simp only [decide_eq_true_eq] at hab
      refine List.pairwise_cons.mpr ⟨?_, h⟩
      intro x hx
      rcases List.mem_cons.mp hx with hx | hx
      · exact hx ▸ hab
      · exact Nat.le_trans hab (hbt x hx)
    · rename_i hab
      have hba : b ≤ a := by
        have : ¬ a ≤ b := by simpa using hab
        omega
      refine List.pairwise_cons.mpr ⟨?_, ih hpt⟩
      intro x hx
      rcases mem_insertSorted.mp hx with hx | hx
      · exact hx ▸ hba
      · exact hbt x hx

theorem sortBy_natLe_sorted (l : List Nat) :
    (sortBy (fun x y => decide (x ≤ y)) l).Pairwise (· ≤ ·) := by
  induction l with
  | nil => simp [sortBy]
  | cons a t ih => exact pairwise_insertSorted_natLe a ih

theorem sortBy_natLe_strict {l : List Nat} (h : l.Nodup) :
    (sortBy (fun x y => decide (x ≤ y)) l).Pairwise (· < ·) := by
  have hs := sortBy_natLe_sorted l
  have hn : (sortBy (fun x y => decide (x ≤ y)) l).Nodup :=
    ((sortBy_perm _ l).nodup_iff).mpr h
  exact (hs.and hn).imp (fun hab => lt_of_le_of_ne hab.1 hab.2)

theorem monthIdx_filter_congr {dff : List Row} {k : Nat}
    (hval : ∀ r ∈ dff, 1 ≤ r.month ∧ r.month ≤ 12) :
    dff.filter (fun r => monthIdx r == k) =
      dff.filter (fun r => r.year == k / 12 && r.month == k % 12 + 1) := by
  apply List.filter_congr
  intro r hr
  obtain ⟨hm1, hm12⟩ := hval r hr
  rw [Bool.eq_iff_iff]
  simp only [beq_iff_eq, Bool.and_eq_true]
  unfold monthIdx
  omega

/-- Claim C8: the monthly trend groups filtered rows by calendar month
(year and month, regardless of day), counts incidents and sums casualties
per month, normalizes the month key to the first day of the month, and the
output is sorted chronologically ascending with no duplicate month keys
(the lexicographic order on the keys is strict).  Dates are assumed valid
(months 1..12), as the loader guarantees. -/
theorem c8_monthly_trend (dff : List Row)
    (hval : ∀ r ∈ dff, 1 ≤ r.month ∧ r.month ≤ 12) :
    (monthlyTrend dff).Pairwise
      (fun a b => a.1.1 < b.1.1 ∨ (a.1.1 = b.1.1 ∧ a.1.2.1 < b.1.2.1)) ∧
    (∀ e ∈ monthlyTrend dff,
      e.1.2.2 = 1 ∧
      (∃ r ∈ dff, r.year = e.1.1 ∧ r.month = e.1.2.1) ∧
      e.2.1 = (dff.filter (fun r => r.year == e.1.1 && r.month == e.1.2.1)).length ∧
      e.2.2 = ((dff.filter (fun r => r.year == e.1.1 && r.month == e.1.2.1)).map
        (fun r => r.totalCasualties)).sum) ∧
    (∀ r ∈ dff, ∃ e ∈ monthlyTrend dff, e.1.1 = r.year ∧ e.1.2.1 = r.month) := by
  refine ⟨?_, ?_, ?_⟩
  · unfold monthlyTrend
    rw [List.pairwise_map]
    refine (sortBy_natLe_strict (List.nodup_dedup _)).imp ?_
    intro k k2 hkk
    dsimp only
    rcases Nat.lt_or_ge (k / 12) (k2 / 12) with h | h
    · exact Or.inl h
    · exact Or.inr ⟨by omega, by omega⟩
  · intro e he
    unfold monthlyTrend at he
    rcases List.mem_map.mp he with ⟨k, hk, hke⟩
    have hkin : k ∈ dff.map monthIdx := List.mem_dedup.mp (mem_sortBy.mp hk)
    rcases List.mem_map.mp hkin with ⟨r0, hr0, hr0k⟩
    obtain ⟨hm1, hm12⟩ := hval r0 hr0
    unfold monthIdx at hr0k
    subst hke
    refine ⟨rfl, ⟨r0, hr0, ?_, ?_⟩, ?_, ?_⟩
    · show r0.year = k / 12
      omega
    · show r0.month = k % 12 + 1
      omega
    · show (dff.filter (fun r => monthIdx r == k)).length = _
      rw [monthIdx_filter_congr hval]
    · show ((dff.filter (fun r => monthIdx r == k)).map (fun r => r.totalCasualties)).sum = _
      rw [monthIdx_filter_congr hval]
  · intro r hr
    obtain ⟨hm1, hm12⟩ := hval r hr
    have hk : monthIdx r ∈ sortBy (fun a b => decide (a ≤ b)) (dff.map monthIdx).dedup :=
      mem_sortBy.mpr (List.mem_dedup.mpr (List.mem_map_of_mem _ hr))
    unfold monthlyTrend
    refine ⟨_, List.mem_map_of_mem _ hk, ?_, ?_⟩
    · show monthIdx r / 12 = r.year
      unfold monthIdx
      omega
    · show monthIdx r % 12 + 1 = r.month
      unfold monthIdx
      omega

/-- Witness for C8 at the one-row Italy table (January 2024). -/
theorem c8_witness :
    (monthlyTrend [italyRow]).Pairwise
      (fun a b => a.1.1 < b.1.1 ∨ (a.1.1 = b.1.1 ∧ a.1.2.1 < b.1.2.1)) ∧
    (∀ e ∈ monthlyTrend [italyRow],
      e.1.2.2 = 1 ∧
      (∃ r ∈ [italyRow], r.year = e.1.1 ∧ r.month = e.1.2.1) ∧
      e.2.1 = ([italyRow].filter (fun r => r.year == e.1.1 && r.month == e.1.2.1)).length ∧
      e.2.2 = (([italyRow].filter (fun r => r.year == e.1.1 && r.month == e.1.2.1)).map
        (fun r => r.totalCasualties)).sum) ∧
    (∀ r ∈ [italyRow], ∃ e ∈ monthlyTrend [italyRow],
      e.1.1 = r.year ∧ e.1.2.1 = r.month) :=
  c8_monthly_trend [italyRow] (by decide)

end RiskMap
